import Mathlib

/-!
Verification of the rv cache subsystem and the concurrent gem
acquisition/installation pipeline (crates rv-cache and rv, command ci).

The Rust sources are shallowly embedded: paths become lists of components,
the on-disk state becomes a finite tree, archives and compressed payloads
become symbolic blobs, and the bounded-concurrency stream combinators become
an explicit scheduler over a completion schedule.
-/

namespace RvDev

/-- Model of a camino Utf8PathBuf: an absolute flag plus a list of normal
path components. Joining a path onto another replaces it entirely when the
right-hand path is absolute, exactly as PathBuf::join does. -/
structure RvPath where
  absolute : Bool
  components : List String
deriving DecidableEq, Repr

/-- Utf8PathBuf::join. -/
def RvPath.join (p q : RvPath) : RvPath :=
  if q.absolute then q else ⟨p.absolute, p.components ++ q.components⟩

/-- Utf8Path::parent: none for the empty path and for a bare root. -/
def RvPath.parent (p : RvPath) : Option RvPath :=
  match p.components with
  | [] => none
  | _ :: _ => some ⟨p.absolute, p.components.dropLast⟩

/-- A CacheEntry which may or may not exist yet (rv-cache/src/lib.rs). -/
structure CacheEntry where
  path : RvPath
deriving DecidableEq, Repr

/-- A subdirectory within the cache (rv-cache/src/lib.rs). -/
structure CacheShard where
  path : RvPath
deriving DecidableEq, Repr

/-- CacheEntry::new: join a file name onto a directory. -/
def CacheEntry.new (dir : RvPath) (file : RvPath) : CacheEntry :=
  ⟨dir.join file⟩

/-- CacheEntry::from_path: wrap an arbitrary path, with no checking. -/
def CacheEntry.from_path (p : RvPath) : CacheEntry :=
  ⟨p⟩

/-- CacheEntry::dir: the entry's parent directory. The Rust code calls
.parent().expect(...), so a missing parent is a panic; the model returns
none exactly where the Rust code would panic. -/
def CacheEntry.dir (e : CacheEntry) : Option RvPath :=
  e.path.parent

/-- CacheEntry::shard: the owning shard, via CacheEntry::dir (panics with it). -/
def CacheEntry.shard (e : CacheEntry) : Option CacheShard :=
  (e.dir).map CacheShard.mk

/-- CacheEntry::with_file: a sibling entry in the same directory (uses
CacheEntry::dir, hence panics with it). -/
def CacheEntry.with_file (e : CacheEntry) (file : RvPath) : Option CacheEntry :=
  (e.dir).map fun d => ⟨d.join file⟩

/-- CacheShard::entry. -/
def CacheShard.entry (s : CacheShard) (file : RvPath) : CacheEntry :=
  CacheEntry.new s.path file

/-- CacheShard::shard. -/
def CacheShard.shard (s : CacheShard) (dir : RvPath) : CacheShard :=
  ⟨s.path.join dir⟩

/-- The cache bucket enumeration (rv-cache/src/lib.rs). -/
inductive CacheBucket where
  | Ruby
  | Gem
deriving DecidableEq, Repr

/-- CacheBucket::to_str: the stable versioned directory name. -/
def CacheBucket.to_str : CacheBucket → String
  | .Ruby => "ruby-v0"
  | .Gem => "gem-v0"

/-- CacheBucket::iter. -/
def CacheBucket.iter : List CacheBucket :=
  [.Ruby, .Gem]

/-- The main cache abstraction: a root plus the ephemeral-backing flag
(the Arc TempDir handle carries no path information used by the logic). -/
structure Cache where
  root : RvPath
  is_temporary : Bool
deriving DecidableEq, Repr

/-- Cache::bucket: the folder for a specific cache bucket. -/
def Cache.bucket (c : Cache) (b : CacheBucket) : RvPath :=
  c.root.join ⟨false, [b.to_str]⟩

/-- Cache::shard. -/
def Cache.shard (c : Cache) (b : CacheBucket) (dir : RvPath) : CacheShard :=
  ⟨(c.bucket b).join dir⟩

/-- Cache::entry. -/
def Cache.entry (c : Cache) (b : CacheBucket) (dir : RvPath) (file : RvPath) : CacheEntry :=
  CacheEntry.new ((c.bucket b).join dir) file

/-- A byte payload, kept symbolic so that the two codecs the installer uses
(gzip via flate2, tar via the tar crate) can be modelled exactly: a gzip
stream decodes to the blob it wraps, a tar stream lists its entries. -/
inductive Blob where
  | bytes (s : String)
  | gzip (b : Blob)
  | tar (entries : List (String × Blob))

/-- A node of the on-disk filesystem tree: a regular file with contents, or
a directory with named children. -/
inductive FsNode where
  | file (contents : Blob)
  | dir (children : List (String × FsNode))

/-- Find a directory child by name. -/
def lookupChild (children : List (String × FsNode)) (name : String) : Option FsNode :=
  match children with
  | [] => none
  | (n, node) :: rest => if n = name then some node else lookupChild rest name

/-- Replace the child called name, or append it if absent. -/
def setChild (children : List (String × FsNode)) (name : String) (node : FsNode) :
    List (String × FsNode) :=
  match children with
  | [] => [(name, node)]
  | (n, old) :: rest =>
    if n = name then (n, node) :: rest else (n, old) :: setChild rest name node

/-- Resolve a path (a list of components) in the tree. -/
def FsNode.lookup : FsNode → List String → Option FsNode
  | node, [] => some node
  | .file _, _ :: _ => none
  | .dir children, c :: rest =>
    match lookupChild children c with
    | none => none
    | some child => child.lookup rest

/-- Model of std/fs_err/tokio create_dir_all: creates every missing directory
of the path; fails if an existing regular file is in the way. -/
def FsNode.createDirAll : FsNode → List String → Option FsNode
  | .file _, [] => none
  | .dir children, [] => some (.dir children)
  | .file _, _ :: _ => none
  | .dir children, c :: rest =>
    let child := (lookupChild children c).getD (.dir [])
    match child.createDirAll rest with
    | none => none
    | some child' => some (.dir (setChild children c child'))

/-- Model of writing a file at a path: every ancestor directory must already
exist, and the target must not be an existing directory. -/
def FsNode.writeFile : FsNode → List String → Blob → Option FsNode
  | .file _, _, _ => none
  | .dir _, [], _ => none
  | .dir children, [name], contents =>
    match lookupChild children name with
    | some (.dir _) => none
    | _ => some (.dir (setChild children name (.file contents)))
  | .dir children, c :: c1 :: cs, contents =>
    match lookupChild children c with
    | none => none
    | some child =>
      match child.writeFile (c1 :: cs) contents with
      | none => none
      | some child' => some (.dir (setChild children c child'))

/-- Cache::init (rv-cache/src/lib.rs): create the root recursively, open the
.gitignore marker with create_new semantics (an AlreadyExists outcome —
anything already present at the marker path — is swallowed, a fresh file gets
contents asterisk), then canonicalize the root. Canonicalization is modelled
as the identity on an existing path, there being no symlinks in the model. -/
def Cache.init (c : Cache) (fs : FsNode) : Option (Cache × FsNode) :=
  match fs.createDirAll c.root.components with
  | none => none
  | some fs1 =>
    let gp := c.root.components ++ [".gitignore"]
    let afterMarker : Option FsNode :=
      match fs1.lookup gp with
      | some _ => some fs1
      | none => fs1.writeFile gp (.bytes "*")
    match afterMarker with
    | none => none
    | some fs2 =>
      match fs2.lookup c.root.components with
      | some _ => some (c, fs2)
      | none => none

/-- Modelled from the spec: the removal module (rv-cache removal.rs) is not
among the sources; per the spec a Removal is an accumulator of directories
and bytes removed, a commutative monoid under addition with identity zero. -/
structure Removal where
  dirs : Nat
  bytes : Nat
deriving DecidableEq, Repr

instance : Add Removal :=
  ⟨fun a b => ⟨a.dirs + b.dirs, a.bytes + b.bytes⟩⟩

/-- The byte size of a payload: the interesting case is raw bytes; wrappers
count the size of what they carry. -/
def Blob.size : Blob → Nat
  | .bytes s => s.length
  | .gzip b => b.size
  | .tar es => sizeEntries es
where
  sizeEntries : List (String × Blob) → Nat
    | [] => 0
    | (_, b) :: rest => b.size + sizeEntries rest

/-- Modelled from the spec: rm_rf (rv-cache removal.rs, not among the
sources) removes a file of size S as zero directories and S bytes, and a
directory post-order — children first, their Removals summed, plus one for
the directory itself. This is the Removal such a removal returns. -/
def FsNode.rmMeasure : FsNode → Removal
  | .file b => ⟨0, b.size⟩
  | .dir ch => measureChildren ch + ⟨1, 0⟩
where
  measureChildren : List (String × FsNode) → Removal
    | [] => ⟨0, 0⟩
    | (_, n) :: rest => n.rmMeasure + measureChildren rest

/-- Is the node a directory (DirEntry metadata is_dir). -/
def FsNode.isDir : FsNode → Bool
  | .file _ => false
  | .dir _ => true

/-- The body of the Cache::prune loop over the immediate children of the
cache root (rv-cache/src/lib.rs): skip the .gitignore marker; recursively
remove a directory whose name is no recognized bucket name; remove any other
plain file; sum the Removals. -/
def pruneList : List (String × FsNode) → Removal × List (String × FsNode)
  | [] => (⟨0, 0⟩, [])
  | (name, node) :: rest =>
    if name = ".gitignore" then
      let p := pruneList rest
      (p.1, (name, node) :: p.2)
    else
      match node with
      | .dir ch =>
        if CacheBucket.iter.all fun bucket => name != bucket.to_str then
          let p := pruneList rest
          (FsNode.rmMeasure (.dir ch) + p.1, p.2)
        else
          let p := pruneList rest
          (p.1, (name, .dir ch) :: p.2)
      | .file b =>
        let p := pruneList rest
        (FsNode.rmMeasure (.file b) + p.1, p.2)

/-- Cache::prune: list the immediate children of the root and garbage-collect
them; reading the root fails if it is absent or not a directory. -/
def Cache.prune (c : Cache) (fs : FsNode) : Option (Removal × FsNode) :=
  match fs.lookup c.root.components with
  | some (.dir children) =>
    let p := pruneList children
    some (p.1, .dir p.2)
  | _ => none

/-- Restatement of the spec's sentence, for comparison with the code: a root
child survives prune exactly when it is the marker or a directory whose name
is a recognized bucket identifier. -/
def pruneKeeps (e : String × FsNode) : Bool :=
  e.1 == ".gitignore" ||
    (e.2.isDir && !(CacheBucket.iter.all fun bucket => e.1 != bucket.to_str))

/-- Modelled from the spec: the rv-lockfile datatypes module is not among the
sources. A package record carries at least a name and a version. -/
structure GemVersion where
  name : String
  version : String
deriving DecidableEq, Repr

/-- Modelled from the spec: a package record (Spec) of the external manifest,
carrying its name and version plus any declared checksum (the lockfile may
declare checksums; the code's comments mention validating them later). -/
structure GemSpec where
  gem_version : GemVersion
  checksum : Option String
deriving DecidableEq, Repr

/-- Modelled from the spec: a source section of the manifest — a remote plus
its list of package records. -/
structure GemSection where
  remote : String
  specs : List GemSpec
deriving DecidableEq, Repr

/-- Modelled from the spec: the parsed manifest, a list of source sections. -/
structure GemfileDotLock where
  gem : List GemSection
deriving DecidableEq, Repr

/-- The error enumeration of rv/src/commands/ci.rs. -/
inductive CiError where
  | parse
  | io
  | reqwest
  | badRemote (remote : String)
  | urlError
  | badBundlePath
  | invalidTarballPath
deriving DecidableEq, Repr

/-- Does the character list contain the scheme separator sequence. -/
def hasSchemeSep : List Char → Bool
  | ':' :: '/' :: '/' :: _ => true
  | _ :: rest => hasSchemeSep rest
  | [] => false

/-- Model of the external url crate: parsing succeeds when the string has a
scheme separator. -/
def urlParse (s : String) : Option String :=
  if hasSchemeSep s.data then some s else none

/-- Model of the external url crate: joining a relative reference onto a base
whose path ends in a slash appends it after the slash. -/
def urlJoin (base rel : String) : String :=
  if base.data.getLast? = some (Char.ofNat 47) then base ++ rel
  else base ++ "/" ++ rel

/-- url_for_spec (rv/src/commands/ci.rs): compose the download URL
remote/gems/name-version.gem, with a BadRemote error when the remote does not
parse. -/
def url_for_spec (remote : String) (spec : GemSpec) : Except CiError String :=
  match urlParse remote with
  | none => .error (.badRemote remote)
  | some base =>
    .ok (urlJoin base
      ("gems/" ++ spec.gem_version.name ++ "-" ++ spec.gem_version.version ++ ".gem"))

/-- Modelled from the spec: cache_digest (rv-cache cache_key.rs, not among
the sources) is a deterministic digest of the download URL string. -/
def cache_digest (url : String) : String :=
  toString (url.data.foldl (fun h c => (h * 31 + c.toNat) % 1000000007) 7)

/-- What download_gem returns: the payload, the filesystem after the call and
the list of network requests the call issued. -/
structure DownloadOutcome where
  contents : Blob
  fs : FsNode
  requests : List String

/-- download_gem (rv/src/commands/ci.rs): compute the URL for the spec, key
the cache entry under gem-v0/gems by the digest of the URL; on a cache hit
read and return the file with no request; on a miss fetch, create the missing
ancestor directories, write the fetched bytes there and return them. -/
def download_gem (remote : String) (spec : GemSpec)
    (client : String → Except CiError Blob) (cache : Cache) (fs : FsNode) :
    Except CiError DownloadOutcome :=
  match url_for_spec remote spec with
  | .error e => .error e
  | .ok url =>
    let cache_key := cache_digest url
    let cache_path :=
      (cache.shard .Gem ⟨false, ["gems"]⟩).path.join ⟨false, [cache_key ++ ".gem"]⟩
    match fs.lookup cache_path.components with
    | some (.file data) => .ok ⟨data, fs, []⟩
    | some (.dir _) => .error .io
    | none =>
      match client url with
      | .error e => .error e
      | .ok contents =>
        let afterDirs : Option FsNode :=
          match cache_path.parent with
          | some par => fs.createDirAll par.components
          | none => some fs
        match afterDirs with
        | none => .error .io
        | some fs1 =>
          match fs1.writeFile cache_path.components contents with
          | none => .error .io
          | some fs2 => .ok ⟨contents, fs2, [url]⟩

/-- The cache path download_gem uses for a URL, spelled out: the root, then
the versioned gem bucket, then the gems shard, then digest-of-URL dot gem. -/
def gemCachePath (cache : Cache) (url : String) : List String :=
  cache.root.components ++ ["gem-v0", "gems", cache_digest url ++ ".gem"]

/-- Model of flate2 GzDecoder: decoding succeeds exactly on a gzip stream and
yields what it wraps. -/
def gunzip : Blob → Option Blob
  | .gzip b => some b
  | _ => none

/-- Model of tar Archive::entries: succeeds exactly on a tar stream and lists
its entries. -/
def tarEntries : Blob → Option (List (String × Blob))
  | .tar es => some es
  | _ => none

/-- Split a path string on slashes into components. -/
def splitChars (cur : List Char) : List Char → List String
  | [] => [String.mk cur.reverse]
  | c :: rest =>
    if c = '/' then String.mk cur.reverse :: splitChars [] rest
    else splitChars (c :: cur) rest

/-- The components of an entry path string. -/
def splitPath (s : String) : List String :=
  splitChars [] s.data

/-- PathBuf::join of an entry path string onto a directory: an absolute path
replaces the directory, a relative one is appended. -/
def pathJoin (dir : List String) (p : String) : List String :=
  match p.data with
  | c :: _ => if c = '/' then splitPath p else dir ++ splitPath p
  | [] => dir ++ splitPath p

/-- A fetched payload paired with its originating package identity
(rv/src/commands/ci.rs). -/
structure Downloaded where
  contents : Blob
  spec : GemSpec

/-- One iteration of the inner data.tar.gz loop: dst is the data directory
joined with the entry path; the missing intermediate directories of dst are
created, then the entry is unpacked to dst. -/
def unpackDataEntry (data_dir : List String) (fs : FsNode) (e : String × Blob) :
    Option FsNode :=
  let dst := pathJoin data_dir e.1
  match fs.createDirAll dst.dropLast with
  | none => none
  | some fs1 => fs1.writeFile dst e.2

/-- The for loop over archive entries with the question-mark operator: stop
at the first failing entry. -/
def unpackEntries (step : FsNode → α → Option FsNode) : List α → FsNode → Option FsNode
  | [], fs => some fs
  | e :: rest, fs =>
    match step fs e with
    | none => none
    | some fs' => unpackEntries step rest fs'

/-- The body of Downloaded::unpack_tarball's match on the entry name
(rv/src/commands/ci.rs): metadata.gz is decompressed into
specifications/name-version.gemspec, data.tar.gz is decompressed and its
inner archive unpacked under gems/name-version, checksum and signature
entries are recognized but skipped, anything else is logged and skipped. -/
def processEntry (nameversion : String) (bundle_path : List String) (fs : FsNode)
    (e : String × Blob) : Option FsNode :=
  if e.1 = "metadata.gz" then
    let metadata_dir := bundle_path ++ ["specifications"]
    match fs.createDirAll metadata_dir with
    | none => none
    | some fs1 =>
      match gunzip e.2 with
      | none => none
      | some inner => fs1.writeFile (metadata_dir ++ [nameversion ++ ".gemspec"]) inner
  else if e.1 = "data.tar.gz" then
    let data_dir := bundle_path ++ ["gems", nameversion]
    match fs.createDirAll data_dir with
    | none => none
    | some fs1 =>
      match gunzip e.2 with
      | none => none
      | some dec =>
        match tarEntries dec with
        | none => none
        | some inner => unpackEntries (unpackDataEntry data_dir) inner fs1
  else if e.1 = "checksums.yaml.gz" then some fs
  else if e.1 = "data.tar.gz.sig" then some fs
  else if e.1 = "metadata.gz.sig" then some fs
  else if e.1 = "checksums.yaml.gz.sig" then some fs
  else some fs

/-- Downloaded::unpack_tarball: read the outer archive and process each entry
by exact name. -/
def Downloaded.unpack_tarball (d : Downloaded) (bundle_path : List String)
    (fs : FsNode) : Option FsNode :=
  let nameversion := d.spec.gem_version.name ++ "-" ++ d.spec.gem_version.version
  match tarEntries d.contents with
  | none => none
  | some es => unpackEntries (processEntry nameversion bundle_path) es fs

/-- Find the buffered result of task i. -/
def assocFind : List (Nat × β) → Nat → Option β
  | [], _ => none
  | (j, b) :: rest, i => if j = i then some b else assocFind rest i

/-- Emit every buffered result whose index is next in input order: the
reordering FuturesOrdered performs inside buffered. -/
def drainEmit : Nat → List (Nat × β) → Nat → List β → Nat × List β
  | 0, _, emitted, out => (emitted, out)
  | fuel + 1, results, emitted, out =>
    match assocFind results emitted with
    | some b => drainEmit fuel results (emitted + 1) (out ++ [b])
    | none => (emitted, out)

/-- The scheduler state of one buffered stream: how many tasks have been
admitted, the completed results, how many results have been emitted in input
order, the emitted outputs, and the largest number simultaneously in
flight. -/
structure PureRunState (β : Type) where
  started : Nat
  results : List (Nat × β)
  emitted : Nat
  out : List β
  maxIn : Nat

/-- Model of StreamExt::buffered(limit) over map: the schedule lists, in
completion order, the index of the task that finishes next (it must have
been admitted and not yet completed, else the schedule is invalid); after
each completion the freed slot admits the next queued task, and every result
that is next in input order is emitted. Task bodies are abstracted to their
results; admission is modelled at completion granularity. -/
def runLoop (limit : Nat) (inputs : List α) (f : α → β) :
    List Nat → PureRunState β → Option (PureRunState β)
  | [], s => some s
  | i :: rest, s =>
    if i < s.started ∧ (assocFind s.results i).isNone then
      match inputs[i]? with
      | none => none
      | some a =>
        runLoop limit inputs f rest
          ⟨min inputs.length (limit + (s.results ++ [(i, f a)]).length),
           s.results ++ [(i, f a)],
           (drainEmit inputs.length (s.results ++ [(i, f a)]) s.emitted s.out).1,
           (drainEmit inputs.length (s.results ++ [(i, f a)]) s.emitted s.out).2,
           max s.maxIn (min inputs.length (limit + (s.results ++ [(i, f a)]).length) -
             (s.results ++ [(i, f a)]).length)⟩
    else none

/-- Before any completion, min(inputs, limit) tasks are admitted. -/
def initState (n limit : Nat) : PureRunState β :=
  ⟨min n limit, [], 0, [], min n limit⟩

/-- Run a whole buffered batch: a valid schedule must complete and emit every
task; the collected outputs and the peak in-flight count are returned. -/
def runBuffered (limit : Nat) (inputs : List α) (f : α → β)
    (schedule : List Nat) : Option (List β × Nat) :=
  match runLoop limit inputs f schedule (initState inputs.length limit) with
  | none => none
  | some s => if s.emitted = inputs.length then some (s.out, s.maxIn) else none

/-- download_gems (rv/src/commands/ci.rs) at the stream level: one task per
source section of the manifest, buffered with the hard-coded ceiling 10 —
the user's max_concurrent_requests is passed to the per-source task bodies
but does not enter the outer admission — and the per-source result lists are
flattened in order. -/
def download_gems_model (lockfile : GemfileDotLock) (srcResult : GemSection → List γ)
    (max_concurrent_requests : Nat) (schedule : List Nat) : Option (List γ × Nat) :=
  match runBuffered 10 lockfile.gem srcResult schedule with
  | none => none
  | some (out, m) => some (out.flatten, m)

/-- download_gem_source (rv/src/commands/ci.rs) at the stream level: one task
per package record, buffered with the user-configurable ceiling. -/
def download_gem_source_model (sec : GemSection) (gemResult : GemSpec → β)
    (max_concurrent_requests : Nat) (schedule : List Nat) : Option (List β × Nat) :=
  runBuffered max_concurrent_requests sec.specs gemResult schedule

/-- The scheduler invariant: admission keeps exactly min(inputs, limit + done)
tasks started, outputs are the emitted prefix of the input-ordered results,
every buffered result is the value of its task, and the peak in-flight count
never exceeds the limit. -/
def RunInv (limit : Nat) (inputs : List α) (f : α → β) (s : PureRunState β) : Prop :=
  s.started = min inputs.length (limit + s.results.length) ∧
    s.emitted ≤ inputs.length ∧
    s.out = (inputs.map f).take s.emitted ∧
    assocFind s.results s.emitted = none ∧
    (∀ i b, assocFind s.results i = some b → (inputs.map f)[i]? = some b) ∧
    s.maxIn ≤ limit

/-- The scheduler state of a try_collect-ed buffered stream whose tasks read
and write a shared state (the on-disk cache): admitted count, completed
results, current shared state. -/
structure TryRunState (β σ : Type) where
  started : Nat
  results : List (Nat × β)
  st : σ

/-- Model of map + buffered(limit) + try_collect: completions happen in
schedule order, each applying its task to the shared state; the first error
stops the run immediately — the queued and in-flight remainder of the
schedule is never executed — and the shared state keeps everything the
earlier successful tasks wrote. -/
def tryRunLoop (limit : Nat) (inputs : List α) (f : α → σ → Except ε (β × σ)) :
    List Nat → TryRunState β σ → Option (TryRunState β σ × Option ε)
  | [], s => some (s, none)
  | i :: rest, s =>
    if i < s.started ∧ (assocFind s.results i).isNone then
      match inputs[i]? with
      | none => none
      | some a =>
        match f a s.st with
        | .error e => some (s, some e)
        | .ok (b, st') =>
          tryRunLoop limit inputs f rest
            ⟨min inputs.length (limit + (s.results ++ [(i, b)]).length),
             s.results ++ [(i, b)], st'⟩
    else none

/-- Run a fail-fast batch to its outcome: the first error with the state the
successful prefix left behind, or the input-ordered results of a completed
schedule. -/
def runBufferedTry (limit : Nat) (inputs : List α) (f : α → σ → Except ε (β × σ))
    (schedule : List Nat) (st₀ : σ) : Option (Except ε (List β) × σ) :=
  match tryRunLoop limit inputs f schedule ⟨min inputs.length limit, [], st₀⟩ with
  | none => none
  | some (s, some e) => some (.error e, s.st)
  | some (s, none) =>
    if s.results.length = inputs.length then
      some (.ok ((List.range inputs.length).filterMap fun k => assocFind s.results k),
        s.st)
    else none

/-- download_gem_source's stream pipeline over the shared filesystem: one
download_gem task per package record, fail-fast collected. -/
def download_gem_source_run (sec : GemSection) (client : String → Except CiError Blob)
    (cache : Cache) (limit : Nat) (schedule : List Nat) (fs : FsNode) :
    Option (Except CiError (List Blob) × FsNode) :=
  runBufferedTry limit sec.specs
    (fun sp fs1 =>
      match download_gem sec.remote sp client cache fs1 with
      | .error e => .error e
      | .ok o => .ok (o.contents, o.fs))
    schedule fs

/-- ci_inner's composition of the download stage with the install stage: an
error from the downloads short-circuits past installation to the caller. -/
def ci_inner_model (dl : Except CiError (List Blob) × FsNode)
    (inst : List Blob → FsNode → Except CiError FsNode) : Except CiError FsNode :=
  match dl.1 with
  | .error e => .error e
  | .ok gems => inst gems dl.2

/-- What the external install-path resolver (the spawned ruby/Bundler
process) can produce: an I/O failure spawning or waiting, or raw stdout
bytes that either decode to a UTF-8 string or do not. -/
inductive ResolverOutput where
  | ioFailure
  | stdout (utf8 : Option String)

/-- find_bundle_path (rv/src/commands/ci.rs): a process-level failure is an
Io error; stdout that does not decode as UTF-8 is the dedicated
BadBundlePath error; otherwise the decoded string is the install root. -/
def find_bundle_path (r : ResolverOutput) : Except CiError (List String) :=
  match r with
  | .ioFailure => .error .io
  | .stdout none => .error .badBundlePath
  | .stdout (some s) => .ok (splitPath s)

/-- The loop unpacking each downloaded gem into the bundle path. -/
def installAll (bundle : List String) : List Downloaded → FsNode → Except CiError FsNode
  | [], fs => .ok fs
  | d :: rest, fs =>
    match d.unpack_tarball bundle fs with
    | none => .error .io
    | some fs' => installAll bundle rest fs'

/-- install_gems (rv/src/commands/ci.rs): resolve the bundle path first, then
unpack every downloaded gem into it. -/
def install_gems (downloaded : List Downloaded) (r : ResolverOutput) (fs : FsNode) :
    Except CiError FsNode :=
  match find_bundle_path r with
  | .error e => .error e
  | .ok bundle => installAll bundle downloaded fs

/-- C10: the two ways of computing a cache location agree: Cache::entry equals
Cache::shard followed by CacheShard::entry, both equal the root joined with
the bucket's versioned directory name, then the shard directory, then the
file; and for a single-component relative file name the entry's shard is the
shard it was computed from. -/
theorem cache_entry_shard_agree (c : Cache) (b : CacheBucket) (d f : RvPath) :
    (c.entry b d f).path = ((c.shard b d).entry f).path ∧
      (c.entry b d f).path = ((c.root.join ⟨false, [b.to_str]⟩).join d).join f ∧
      (∀ x : String, f = ⟨false, [x]⟩ → (c.entry b d f).shard = some (c.shard b d)) := by
  refine ⟨rfl, rfl, ?_⟩
  rintro x rfl
  have hjoin : ((c.bucket b).join d).join ⟨false, [x]⟩ =
      ⟨((c.bucket b).join d).absolute, ((c.bucket b).join d).components ++ [x]⟩ := by
    simp [RvPath.join]
  simp only [Cache.entry, CacheEntry.new, CacheEntry.shard, CacheEntry.dir, hjoin]
  have hcomp : (((c.bucket b).join d).components ++ [x]) ≠ [] := by simp
  unfold RvPath.parent
  rcases hne : ((c.bucket b).join d).components ++ [x] with _ | ⟨y, ys⟩
  · exact absurd hne hcomp
  · simp only [Option.map_some]
    have : (⟨((c.bucket b).join d).absolute, (y :: ys).dropLast⟩ : RvPath) =
        (c.shard b d).path := by
      have : (y :: ys).dropLast = ((c.bucket b).join d).components := by
        rw [← hne]; simp
      rw [this]
      rfl
    rw [this]
    rfl

theorem cache_entry_shard_agree_witness :
    ((⟨⟨true, ["c"]⟩, false⟩ : Cache).entry .Gem ⟨false, ["d"]⟩ ⟨false, ["f"]⟩).shard =
      some ((⟨⟨true, ["c"]⟩, false⟩ : Cache).shard .Gem ⟨false, ["d"]⟩) :=
  (cache_entry_shard_agree ⟨⟨true, ["c"]⟩, false⟩ .Gem ⟨false, ["d"]⟩ ⟨false, ["f"]⟩).2.2
    "f" rfl

/-- C8 counterexample: a CacheEntry built by CacheEntry::from_path from the
bare root path has no parent directory, so CacheEntry::dir (and shard) panic
on it: the claimed invariant does not hold for every construction. -/
theorem cacheEntry_from_path_root_no_dir :
    (CacheEntry.from_path ⟨true, []⟩).dir = none ∧
      (CacheEntry.from_path ⟨true, []⟩).shard = none := by
  exact ⟨rfl, rfl⟩

/-- C8 (amended): every CacheEntry constructed by CacheEntry::new,
CacheShard::entry, Cache::entry or CacheEntry::with_file from a relative,
nonempty file argument has a parent directory, so dir() and shard() are
defined (never panic) on those entries; only CacheEntry::from_path (or a
degenerate file argument) can yield an entry without a parent. -/
theorem cacheEntry_dir_total_amended (file : RvPath)
    (habs : file.absolute = false) (hne : file.components ≠ []) :
    (∀ dir : RvPath, (CacheEntry.new dir file).dir.isSome ∧
        (CacheEntry.new dir file).shard.isSome) ∧
      (∀ s : CacheShard, (s.entry file).dir.isSome) ∧
      (∀ (c : Cache) (b : CacheBucket) (d : RvPath), (c.entry b d file).dir.isSome) ∧
      (∀ e e' : CacheEntry, e.with_file file = some e' → e'.dir.isSome) := by
  have key : ∀ dir : RvPath, (CacheEntry.new dir file).dir.isSome := by
    intro dir
    have hj : dir.join file = ⟨dir.absolute, dir.components ++ file.components⟩ := by
      simp [RvPath.join, habs]
    simp only [CacheEntry.new, CacheEntry.dir, hj]
    unfold RvPath.parent
    rcases hc : dir.components ++ file.components with _ | ⟨y, ys⟩
    · exact absurd (List.append_eq_nil.mp hc).2 hne
    · simp
  have key2 : ∀ dir : RvPath, (CacheEntry.new dir file).shard.isSome := by
    intro dir
    have h := key dir
    simp only [CacheEntry.shard]
    rcases hd : (CacheEntry.new dir file).dir with _ | d
    · rw [hd] at h; simp at h
    · rfl
  refine ⟨fun dir => ⟨key dir, key2 dir⟩, fun s => key s.path, fun c b d => key _, ?_⟩
  · intro e e' h
    simp only [CacheEntry.with_file] at h
    rcases he : e.dir with _ | d
    · rw [he] at h; simp at h
    · rw [he] at h
      simp only [Option.map, Option.some.injEq] at h
      subst h
      exact key d

theorem cacheEntry_dir_total_amended_witness :
    (⟨false, ["f.json"]⟩ : RvPath).absolute = false ∧
      (⟨false, ["f.json"]⟩ : RvPath).components ≠ [] ∧
      (∀ dir : RvPath, (CacheEntry.new dir ⟨false, ["f.json"]⟩).dir.isSome ∧
        (CacheEntry.new dir ⟨false, ["f.json"]⟩).shard.isSome) := by
  refine ⟨rfl, by decide, ?_⟩
  exact (cacheEntry_dir_total_amended ⟨false, ["f.json"]⟩ rfl (by decide)).1

theorem lookupChild_setChild_self (children : List (String × FsNode)) (n : String)
    (x : FsNode) : lookupChild (setChild children n x) n = some x := by
  induction children with
  | nil => simp [setChild, lookupChild]
  | cons hd tl ih =>
    obtain ⟨m, old⟩ := hd
    by_cases h : m = n
    · simp [setChild, lookupChild, h]
    · simp [setChild, lookupChild, h, ih]

theorem lookupChild_setChild_other (children : List (String × FsNode)) (n m : String)
    (x : FsNode) (h : m ≠ n) :
    lookupChild (setChild children n x) m = lookupChild children m := by
  induction children with
  | nil => simp [setChild, lookupChild, Ne.symm h]
  | cons hd tl ih =>
    obtain ⟨k, old⟩ := hd
    simp only [setChild]
    by_cases hk : k = n
    · subst hk
      simp [lookupChild, Ne.symm h]
    · simp only [if_neg hk]
      by_cases hm : k = m
      · simp [lookupChild, hm]
      · simp [lookupChild, hm, ih]

theorem setChild_self_eq (children : List (String × FsNode)) (n : String) (x : FsNode)
    (h : lookupChild children n = some x) : setChild children n x = children := by
  induction children with
  | nil => simp [lookupChild] at h
  | cons hd tl ih =>
    obtain ⟨k, old⟩ := hd
    by_cases hk : k = n
    · subst hk
      simp [lookupChild] at h
      simp [setChild, h]
    · simp [lookupChild, hk] at h
      simp [setChild, hk, ih h]

/-- After a successful create_dir_all, the target path is a directory. -/
theorem createDirAll_isDir (p : List String) :
    ∀ (fs fs' : FsNode), fs.createDirAll p = some fs' →
      ∃ ch, fs'.lookup p = some (.dir ch) := by
  induction p with
  | nil =>
    intro fs fs' h
    cases fs with
    | file b => simp [FsNode.createDirAll] at h
    | dir ch =>
      simp [FsNode.createDirAll] at h
      exact ⟨ch, by rw [← h]; rfl⟩
  | cons c rest ih =>
    intro fs fs' h
    cases fs with
    | file b => simp [FsNode.createDirAll] at h
    | dir ch =>
      simp only [FsNode.createDirAll] at h
      rcases hrec : FsNode.createDirAll ((lookupChild ch c).getD (.dir [])) rest with _ | child'
      · rw [hrec] at h; simp at h
      · rw [hrec] at h
        simp only [Option.some.injEq] at h
        obtain ⟨ch', hch'⟩ := ih _ _ hrec
        refine ⟨ch', ?_⟩
        rw [← h]
        simp [FsNode.lookup, lookupChild_setChild_self, hch']

/-- create_dir_all is a no-op on an existing directory. -/
theorem createDirAll_noop (p : List String) :
    ∀ (fs : FsNode) (ch : List (String × FsNode)), fs.lookup p = some (.dir ch) →
      fs.createDirAll p = some fs := by
  induction p with
  | nil =>
    intro fs ch h
    simp [FsNode.lookup] at h
    rw [h]
    rfl
  | cons c rest ih =>
    intro fs ch h
    cases fs with
    | file b => simp [FsNode.lookup] at h
    | dir children =>
      simp only [FsNode.lookup] at h
      rcases hc : lookupChild children c with _ | child
      · rw [hc] at h; simp at h
      · rw [hc] at h
        simp only [FsNode.createDirAll, hc, Option.getD_some]
        rw [ih child ch h]
        simp [setChild_self_eq children c child hc]

/-- A successful create_dir_all does not change what any strict extension of
the created path resolves to. -/
theorem createDirAll_lookup_append (p : List String) :
    ∀ (fs fs' : FsNode) (r : List String), fs.createDirAll p = some fs' → r ≠ [] →
      fs'.lookup (p ++ r) = fs.lookup (p ++ r) := by
  induction p with
  | nil =>
    intro fs fs' r h _
    cases fs with
    | file b => simp [FsNode.createDirAll] at h
    | dir ch => simp [FsNode.createDirAll] at h; rw [← h]
  | cons c rest ih =>
    intro fs fs' r h hr
    cases fs with
    | file b => simp [FsNode.createDirAll] at h
    | dir children =>
      simp only [FsNode.createDirAll] at h
      rcases hrec : FsNode.createDirAll ((lookupChild children c).getD (.dir [])) rest
        with _ | child'
      · rw [hrec] at h; simp at h
      · rw [hrec] at h
        simp only [Option.some.injEq] at h
        subst h
        simp only [List.cons_append, FsNode.lookup, lookupChild_setChild_self,
          List.append_eq]
        rcases hc : lookupChild children c with _ | child
        · simp only [hc, Option.getD_none] at hrec
          simp only [hc]
          have h2 := ih _ _ r hrec hr
          rw [h2]
          have hnil : rest ++ r ≠ [] := by
            intro hh
            exact hr (List.append_eq_nil.mp hh).2
          rcases hq : rest ++ r with _ | ⟨q0, qs⟩
          · exact absurd hq hnil
          · simp [FsNode.lookup, lookupChild]
        · simp only [hc, Option.getD_some] at hrec
          simp only [hc]
          exact ih _ _ r hrec hr

/-- A successful create_dir_all preserves every existing regular file. -/
theorem createDirAll_preserves_file (p : List String) :
    ∀ (fs fs' : FsNode) (q : List String) (b : Blob), fs.createDirAll p = some fs' →
      fs.lookup q = some (.file b) → fs'.lookup q = some (.file b) := by
  induction p with
  | nil =>
    intro fs fs' q b h hq
    cases fs with
    | file bb => simp [FsNode.createDirAll] at h
    | dir ch => simp [FsNode.createDirAll] at h; rw [← h]; exact hq
  | cons c rest ih =>
    intro fs fs' q b h hq
    cases fs with
    | file bb => simp [FsNode.createDirAll] at h
    | dir children =>
      simp only [FsNode.createDirAll] at h
      rcases hrec : FsNode.createDirAll ((lookupChild children c).getD (.dir [])) rest
        with _ | child'
      · rw [hrec] at h; simp at h
      · rw [hrec] at h
        simp only [Option.some.injEq] at h
        subst h
        rcases q with _ | ⟨d, qrest⟩
        · simp [FsNode.lookup] at hq
        · simp only [FsNode.lookup] at hq ⊢
          by_cases hdc : d = c
          · subst hdc
            rcases hc : lookupChild children d with _ | child
            · rw [hc] at hq; simp at hq
            · rw [hc] at hq
              rw [lookupChild_setChild_self]
              rw [hc, Option.getD_some] at hrec
              exact ih _ _ qrest b hrec hq
          · rw [lookupChild_setChild_other children c d child' fun hh => hdc hh]
            exact hq

/-- A successful file write makes the written path resolve to that file. -/
theorem writeFile_lookup_self (p : List String) :
    ∀ (fs fs' : FsNode) (b : Blob), fs.writeFile p b = some fs' →
      fs'.lookup p = some (.file b) := by
  induction p with
  | nil =>
    intro fs fs' b h
    cases fs <;> simp [FsNode.writeFile] at h
  | cons c rest ih =>
    intro fs fs' b h
    cases fs with
    | file bb => simp [FsNode.writeFile] at h
    | dir children =>
      rcases rest with _ | ⟨c1, cs⟩
      · simp only [FsNode.writeFile] at h
        rcases hc : lookupChild children c with _ | child
        · rw [hc] at h
          simp only [Option.some.injEq] at h
          subst h
          simp [FsNode.lookup, lookupChild_setChild_self]
        · rw [hc] at h
          cases child with
          | dir ch2 => simp at h
          | file bb =>
            simp only [Option.some.injEq] at h
            subst h
            simp [FsNode.lookup, lookupChild_setChild_self]
      · simp only [FsNode.writeFile] at h
        rcases hc : lookupChild children c with _ | child
        · simp only [hc] at h
          exact Option.noConfusion h
        · simp only [hc] at h
          rcases hrec : child.writeFile (c1 :: cs) b with _ | child'
          · simp only [hrec] at h
            exact Option.noConfusion h
          · simp only [hrec, Option.some.injEq] at h
            subst h
            simp only [FsNode.lookup, lookupChild_setChild_self]
            exact ih _ _ b hrec

/-- A successful file write preserves every existing regular file whose path
is not a prefix of the written path. -/
theorem writeFile_preserves_file (p : List String) :
    ∀ (fs fs' : FsNode) (b : Blob) (q : List String) (bl : Blob),
      fs.writeFile p b = some fs' → fs.lookup q = some (.file bl) →
      ¬ q <+: p → fs'.lookup q = some (.file bl) := by
  induction p with
  | nil =>
    intro fs fs' b q bl h _ _
    cases fs <;> simp [FsNode.writeFile] at h
  | cons c rest ih =>
    intro fs fs' b q bl h hq hnp
    cases fs with
    | file bb => simp [FsNode.writeFile] at h
    | dir children =>
      rcases q with _ | ⟨d, qrest⟩
      · simp [FsNode.lookup] at hq
      · simp only [FsNode.lookup] at hq
        rcases hd : lookupChild children d with _ | childq
        · rw [hd] at hq; exact Option.noConfusion hq
        · rw [hd] at hq
          by_cases hdc : d = c
          · subst hdc
            rcases rest with _ | ⟨c1, cs⟩
            · simp only [FsNode.writeFile, hd] at h
              cases childq with
              | dir ch2 =>
                rcases qrest with _ | ⟨q1, qs⟩
                · simp [FsNode.lookup] at hq
                · exact Option.noConfusion h
              | file bb =>
                rcases qrest with _ | ⟨q1, qs⟩
                · exact absurd (List.prefix_refl [d]) hnp
                · simp [FsNode.lookup] at hq
            · simp only [FsNode.writeFile, hd] at h
              rcases hrec : childq.writeFile (c1 :: cs) b with _ | child'
              · simp only [hrec] at h
                exact Option.noConfusion h
              · simp only [hrec, Option.some.injEq] at h
                subst h
                simp only [FsNode.lookup, lookupChild_setChild_self]
                refine ih _ _ b qrest bl hrec hq ?_
                intro hpre
                exact hnp (List.cons_prefix_cons.mpr ⟨rfl, hpre⟩)
          · rcases rest with _ | ⟨c1, cs⟩
            · simp only [FsNode.writeFile] at h
              rcases hc : lookupChild children c with _ | childc
              · rw [hc] at h
                simp only [Option.some.injEq] at h
                subst h
                simp only [FsNode.lookup,
                  lookupChild_setChild_other children c d _ hdc, hd]
                exact hq
              · rw [hc] at h
                cases childc with
                | dir ch2 => exact Option.noConfusion h
                | file bb =>
                  simp only [Option.some.injEq] at h
                  subst h
                  simp only [FsNode.lookup,
                    lookupChild_setChild_other children c d _ hdc, hd]
                  exact hq
            · simp only [FsNode.writeFile] at h
              rcases hc : lookupChild children c with _ | childc
              · simp only [hc] at h
                exact Option.noConfusion h
              · simp only [hc] at h
                rcases hrec : childc.writeFile (c1 :: cs) b with _ | child'
                · simp only [hrec] at h
                  exact Option.noConfusion h
                · simp only [hrec, Option.some.injEq] at h
                  subst h
                  simp only [FsNode.lookup,
                    lookupChild_setChild_other children c d _ hdc, hd]
                  exact hq

/-- A successful file write keeps every existing directory a directory. -/
theorem writeFile_preserves_dir (p : List String) :
    ∀ (fs fs' : FsNode) (b : Blob) (q : List String) (ch : List (String × FsNode)),
      fs.writeFile p b = some fs' → fs.lookup q = some (.dir ch) →
      ∃ ch', fs'.lookup q = some (.dir ch') := by
  induction p with
  | nil =>
    intro fs fs' b q ch h _
    cases fs <;> simp [FsNode.writeFile] at h
  | cons c rest ih =>
    intro fs fs' b q ch h hq
    cases fs with
    | file bb => simp [FsNode.writeFile] at h
    | dir children =>
      rcases q with _ | ⟨d, qrest⟩
      · simp only [FsNode.lookup, Option.some.injEq] at hq
        rcases rest with _ | ⟨c1, cs⟩
        · simp only [FsNode.writeFile] at h
          rcases hc : lookupChild children c with _ | childc
          · rw [hc] at h
            simp only [Option.some.injEq] at h
            exact ⟨_, by rw [← h]; rfl⟩
          · rw [hc] at h
            cases childc with
            | dir ch2 => exact Option.noConfusion h
            | file bb =>
              simp only [Option.some.injEq] at h
              exact ⟨_, by rw [← h]; rfl⟩
        · simp only [FsNode.writeFile] at h
          rcases hc : lookupChild children c with _ | childc
          · simp only [hc] at h
            exact Option.noConfusion h
          · simp only [hc] at h
            rcases hrec : childc.writeFile (c1 :: cs) b with _ | child'
            · simp only [hrec] at h
              exact Option.noConfusion h
            · simp only [hrec, Option.some.injEq] at h
              exact ⟨_, by rw [← h]; rfl⟩
      · simp only [FsNode.lookup] at hq
        rcases hd : lookupChild children d with _ | childq
        · rw [hd] at hq; exact Option.noConfusion hq
        · rw [hd] at hq
          by_cases hdc : d = c
          · subst hdc
            rcases rest with _ | ⟨c1, cs⟩
            · simp only [FsNode.writeFile, hd] at h
              cases childq with
              | dir ch2 => exact Option.noConfusion h
              | file bb =>
                rcases qrest with _ | ⟨q1, qs⟩
                · simp [FsNode.lookup] at hq
                · simp [FsNode.lookup] at hq
            · simp only [FsNode.writeFile, hd] at h
              rcases hrec : childq.writeFile (c1 :: cs) b with _ | child'
              · simp only [hrec] at h
                exact Option.noConfusion h
              · simp only [hrec, Option.some.injEq] at h
                subst h
                simp only [FsNode.lookup, lookupChild_setChild_self]
                exact ih _ _ b qrest ch hrec hq
          · rcases rest with _ | ⟨c1, cs⟩
            · simp only [FsNode.writeFile] at h
              rcases hc : lookupChild children c with _ | childc
              · rw [hc] at h
                simp only [Option.some.injEq] at h
                subst h
                refine ⟨ch, ?_⟩
                simp only [FsNode.lookup,
                  lookupChild_setChild_other children c d _ hdc, hd]
                exact hq
              · rw [hc] at h
                cases childc with
                | dir ch2 => exact Option.noConfusion h
                | file bb =>
                  simp only [Option.some.injEq] at h
                  subst h
                  refine ⟨ch, ?_⟩
                  simp only [FsNode.lookup,
                    lookupChild_setChild_other children c d _ hdc, hd]
                  exact hq
            · simp only [FsNode.writeFile] at h
              rcases hc : lookupChild children c with _ | childc
              · simp only [hc] at h
                exact Option.noConfusion h
              · simp only [hc] at h
                rcases hrec : childc.writeFile (c1 :: cs) b with _ | child'
                · simp only [hrec] at h
                  exact Option.noConfusion h
                · simp only [hrec, Option.some.injEq] at h
                  subst h
                  refine ⟨ch, ?_⟩
                  simp only [FsNode.lookup,
                    lookupChild_setChild_other children c d _ hdc, hd]
                  exact hq

/-- Writing a fresh file directly under an existing directory succeeds. -/
theorem writeFile_exists (p : List String) :
    ∀ (fs : FsNode) (ch : List (String × FsNode)) (x : String) (b : Blob),
      fs.lookup p = some (.dir ch) → fs.lookup (p ++ [x]) = none →
      ∃ fs', fs.writeFile (p ++ [x]) b = some fs' := by
  induction p with
  | nil =>
    intro fs ch x b hdir hnone
    simp only [FsNode.lookup, Option.some.injEq] at hdir
    subst hdir
    simp only [List.nil_append, FsNode.lookup] at hnone
    rcases hx : lookupChild ch x with _ | childx
    · refine ⟨.dir (setChild ch x (.file b)), ?_⟩
      simp [FsNode.writeFile, hx]
    · rw [hx] at hnone
      simp at hnone
  | cons c rest ih =>
    intro fs ch x b hdir hnone
    cases fs with
    | file bb => simp [FsNode.lookup] at hdir
    | dir children =>
      simp only [FsNode.lookup] at hdir
      rcases hc : lookupChild children c with _ | child
      · rw [hc] at hdir; exact Option.noConfusion hdir
      · rw [hc] at hdir
        simp only [List.cons_append, FsNode.lookup, hc] at hnone
        obtain ⟨child', hchild'⟩ := ih child ch x b hdir hnone
        have hne : rest ++ [x] ≠ [] := by simp
        refine ⟨.dir (setChild children c child'), ?_⟩
        rcases hrx : rest ++ [x] with _ | ⟨r0, rs⟩
        · exact absurd hrx hne
        · simp only [List.cons_append, FsNode.writeFile, hrx, hc]
          rw [← hrx, hchild']

/-- C6: Cache::init is idempotent on the on-disk state: a successful call
leaves a state on which a second call succeeds and changes nothing, and no
call alters the contents of an existing marker file. -/
theorem cache_init_idempotent (c c' : Cache) (fs fs' : FsNode)
    (h : Cache.init c fs = some (c', fs')) :
    Cache.init c' fs' = some (c', fs') ∧
      ∀ b, fs.lookup (c.root.components ++ [".gitignore"]) = some (.file b) →
        fs'.lookup (c.root.components ++ [".gitignore"]) = some (.file b) := by
  simp only [Cache.init] at h
  rcases h1 : fs.createDirAll c.root.components with _ | fs1
  · rw [h1] at h; exact Option.noConfusion h
  · simp only [h1] at h
    obtain ⟨ch1, hch1⟩ := createDirAll_isDir _ _ _ h1
    have hsame : fs1.lookup (c.root.components ++ [".gitignore"]) =
        fs.lookup (c.root.components ++ [".gitignore"]) :=
      createDirAll_lookup_append _ _ _ _ h1 (by simp)
    rcases hm : fs1.lookup (c.root.components ++ [".gitignore"]) with _ | marker
    · -- marker absent: init writes it
      simp only [hm] at h
      rcases hw : fs1.writeFile (c.root.components ++ [".gitignore"]) (.bytes "*")
        with _ | fs2
      · simp only [hw] at h; exact Option.noConfusion h
      · simp only [hw] at h
        rcases hl : fs2.lookup c.root.components with _ | n2
        · simp only [hl] at h; exact Option.noConfusion h
        · simp only [hl, Option.some.injEq, Prod.mk.injEq] at h
          obtain ⟨hc', hfs'⟩ := h
          subst hc'
          subst hfs'
          constructor
          · -- second call succeeds and is a no-op
            obtain ⟨ch2, hch2⟩ := writeFile_preserves_dir _ _ _ _ _ _ hw hch1
            have hnoop := createDirAll_noop _ _ _ hch2
            have hmark := writeFile_lookup_self _ _ _ _ hw
            simp only [Cache.init, hnoop, hmark, hch2]
          · -- an existing marker is never overwritten: contradiction with absence
            intro b hb
            rw [hsame] at hm
            rw [hm] at hb
            exact Option.noConfusion hb
    · -- marker present: swallowed AlreadyExists, state unchanged
      simp only [hm] at h
      rcases hl : fs1.lookup c.root.components with _ | n2
      · simp only [hl] at h; exact Option.noConfusion h
      · simp only [hl, Option.some.injEq, Prod.mk.injEq] at h
        obtain ⟨hc', hfs'⟩ := h
        subst hc'
        subst hfs'
        constructor
        · have hnoop := createDirAll_noop _ _ _ hch1
          simp only [Cache.init, hnoop, hm, hch1]
        · intro b hb
          exact hsame.trans hb

theorem cache_init_idempotent_witness :
    Cache.init ⟨⟨true, ["cache"]⟩, false⟩
        (.dir [("cache", .dir [(".gitignore", .file (.bytes "xyz"))])]) =
      some (⟨⟨true, ["cache"]⟩, false⟩,
        .dir [("cache", .dir [(".gitignore", .file (.bytes "xyz"))])]) ∧
      Cache.init ⟨⟨true, ["cache"]⟩, false⟩
          (.dir [("cache", .dir [(".gitignore", .file (.bytes "xyz"))])]) =
        some (⟨⟨true, ["cache"]⟩, false⟩,
          .dir [("cache", .dir [(".gitignore", .file (.bytes "xyz"))])]) ∧
      (.dir [("cache", .dir [(".gitignore", .file (.bytes "xyz"))])] : FsNode).lookup
          (["cache"] ++ [".gitignore"]) = some (.file (.bytes "xyz")) := by
  have h : Cache.init ⟨⟨true, ["cache"]⟩, false⟩
      (.dir [("cache", .dir [(".gitignore", .file (.bytes "xyz"))])]) =
      some (⟨⟨true, ["cache"]⟩, false⟩,
        .dir [("cache", .dir [(".gitignore", .file (.bytes "xyz"))])]) := by rfl
  refine ⟨h, (cache_init_idempotent _ _ _ _ h).1, ?_⟩
  exact (cache_init_idempotent _ _ _ _ h).2 (.bytes "xyz") rfl

/-- C2: prune removes exactly the non-marker plain files and the directories
with unrecognized names among the root's immediate children, returns the sum
of their recursive removal measures, and keeps the marker and every
recognized bucket directory untouched (their subtrees unchanged, never
descended into). -/
theorem cache_prune_exact (children : List (String × FsNode)) :
    (pruneList children).2 = children.filter pruneKeeps ∧
      (pruneList children).1 =
        (children.filter fun e => !(pruneKeeps e)).foldr
          (fun e acc => FsNode.rmMeasure e.2 + acc) ⟨0, 0⟩ ∧
      ∀ (c : Cache) (fs : FsNode),
        fs.lookup c.root.components = some (.dir children) →
        c.prune fs = some ((pruneList children).1, .dir (pruneList children).2) := by
  have main : ∀ cs : List (String × FsNode),
      (pruneList cs).2 = cs.filter pruneKeeps ∧
        (pruneList cs).1 =
          (cs.filter fun e => !(pruneKeeps e)).foldr
            (fun e acc => FsNode.rmMeasure e.2 + acc) ⟨0, 0⟩ := by
    intro cs
    induction cs with
    | nil => exact ⟨rfl, rfl⟩
    | cons hd tl ih =>
      obtain ⟨name, node⟩ := hd
      obtain ⟨ih1, ih2⟩ := ih
      by_cases hg : name = ".gitignore"
      · subst hg
        have hk : pruneKeeps (".gitignore", node) = true := by
          simp [pruneKeeps]
        constructor
        · simp [pruneList, List.filter_cons, hk, ih1]
        · simp [pruneList, List.filter_cons, hk, ih2]
      · cases node with
        | dir ch =>
          by_cases hb : (CacheBucket.iter.all fun bucket => name != bucket.to_str) = true
          · have hk : pruneKeeps (name, .dir ch) = false := by
              simp [pruneKeeps, FsNode.isDir, hb, hg]
            constructor
            · simp [pruneList, hg, hb, List.filter_cons, hk, ih1]
            · simp [pruneList, hg, hb, List.filter_cons, hk, ih2]
          · have hb' : (CacheBucket.iter.all fun bucket => name != bucket.to_str) = false := by
              simp only [Bool.not_eq_true] at hb
              exact hb
            have hk : pruneKeeps (name, .dir ch) = true := by
              simp [pruneKeeps, FsNode.isDir, hb', hg]
            constructor
            · simp [pruneList, hg, hb', List.filter_cons, hk, ih1]
            · simp [pruneList, hg, hb', List.filter_cons, hk, ih2]
        | file b =>
          have hk : pruneKeeps (name, .file b) = false := by
            simp [pruneKeeps, FsNode.isDir, hg]
          constructor
          · simp [pruneList, hg, List.filter_cons, hk, ih1]
          · simp [pruneList, hg, List.filter_cons, hk, ih2]
  refine ⟨(main children).1, (main children).2, ?_⟩
  intro c fs hroot
  simp [Cache.prune, hroot]

theorem cache_prune_exact_witness :
    (⟨⟨true, ["cr"]⟩, false⟩ : Cache).prune
        (.dir [("cr", .dir
          [(".gitignore", .file (.bytes "*")),
           ("ruby-v0", .dir [("x.json", .file (.bytes "12"))]),
           ("ruby-v-0", .dir [("old.json", .file (.bytes "1234"))]),
           ("random.txt", .file (.bytes "123"))])]) =
      some (⟨1, 7⟩, .dir
        [(".gitignore", .file (.bytes "*")),
         ("ruby-v0", .dir [("x.json", .file (.bytes "12"))])]) := by
  have h := (cache_prune_exact
    [(".gitignore", .file (.bytes "*")),
     ("ruby-v0", .dir [("x.json", .file (.bytes "12"))]),
     ("ruby-v-0", .dir [("old.json", .file (.bytes "1234"))]),
     ("random.txt", .file (.bytes "123"))]).2.2
    ⟨⟨true, ["cr"]⟩, false⟩
    (.dir [("cr", .dir
      [(".gitignore", .file (.bytes "*")),
       ("ruby-v0", .dir [("x.json", .file (.bytes "12"))]),
       ("ruby-v-0", .dir [("old.json", .file (.bytes "1234"))]),
       ("random.txt", .file (.bytes "123"))])])
    rfl
  rw [h]
  rfl

/-- C1: download_gem keys the cache by a digest of the fully qualified
download URL (never by a declared checksum); on a hit it returns the cached
file contents unchanged with no network request; on a miss it fetches,
creates the missing ancestor directories of the cache entry, writes the
fetched bytes there verbatim and returns them. -/
theorem download_gem_cache_aside (remote : String) (spec : GemSpec)
    (client : String → Except CiError Blob) (cache : Cache) (fs : FsNode)
    (url : String) (hurl : url_for_spec remote spec = .ok url) :
    ((cache.shard .Gem ⟨false, ["gems"]⟩).path.join
        ⟨false, [cache_digest url ++ ".gem"]⟩).components = gemCachePath cache url ∧
      (∀ cs, url_for_spec remote ⟨spec.gem_version, cs⟩ = .ok url) ∧
      (∀ data, fs.lookup (gemCachePath cache url) = some (.file data) →
        download_gem remote spec client cache fs = .ok ⟨data, fs, []⟩) ∧
      (∀ contents fs1, fs.lookup (gemCachePath cache url) = none →
        client url = .ok contents →
        fs.createDirAll (gemCachePath cache url).dropLast = some fs1 →
        ∃ fs2, fs1.writeFile (gemCachePath cache url) contents = some fs2 ∧
          download_gem remote spec client cache fs = .ok ⟨contents, fs2, [url]⟩ ∧
          fs2.lookup (gemCachePath cache url) = some (.file contents)) := by
  have hjoin : (cache.shard .Gem ⟨false, ["gems"]⟩).path.join
      ⟨false, [cache_digest url ++ ".gem"]⟩ =
      ⟨cache.root.absolute, gemCachePath cache url⟩ := by
    simp [Cache.shard, Cache.bucket, RvPath.join, gemCachePath, CacheBucket.to_str]
  have hpath : ((cache.shard .Gem ⟨false, ["gems"]⟩).path.join
      ⟨false, [cache_digest url ++ ".gem"]⟩).components = gemCachePath cache url := by
    rw [hjoin]
  refine ⟨hpath, ?_, ?_, ?_⟩
  · intro cs
    simp only [url_for_spec] at hurl ⊢
    exact hurl
  · intro data hdata
    simp only [download_gem, hurl]
    rw [hpath, hdata]
  · intro contents fs1 hnone hclient hdirs
    have hne : gemCachePath cache url ≠ [] := by simp [gemCachePath]
    have hparent : (RvPath.parent ⟨cache.root.absolute, gemCachePath cache url⟩) =
        some ⟨cache.root.absolute, (gemCachePath cache url).dropLast⟩ := by
      unfold RvPath.parent
      rcases hq : gemCachePath cache url with _ | ⟨q0, qs⟩
      · exact absurd hq hne
      · simp [← hq]
    have hdropLast : (gemCachePath cache url).dropLast =
        cache.root.components ++ ["gem-v0", "gems"] := by
      simp [gemCachePath]
    have hdir1 : ∃ ch, fs1.lookup ((gemCachePath cache url).dropLast) =
        some (.dir ch) := createDirAll_isDir _ _ _ hdirs
    obtain ⟨ch1, hch1⟩ := hdir1
    have hsplit : gemCachePath cache url =
        (gemCachePath cache url).dropLast ++ [cache_digest url ++ ".gem"] := by
      rw [hdropLast]
      simp [gemCachePath, List.append_assoc]
    have hnone1 : fs1.lookup (gemCachePath cache url) = none := by
      rw [hsplit] at hnone ⊢
      rw [createDirAll_lookup_append _ _ _ _ hdirs (by simp)]
      exact hnone
    obtain ⟨fs2, hfs2⟩ := by
      refine writeFile_exists ((gemCachePath cache url).dropLast) fs1 ch1
        (cache_digest url ++ ".gem") contents hch1 ?_
      rw [← hsplit]
      exact hnone1
    have hfs2' : fs1.writeFile (gemCachePath cache url) contents = some fs2 := by
      rw [hsplit]
      exact hfs2
    refine ⟨fs2, hfs2', ?_, ?_⟩
    · simp only [download_gem, hurl, hjoin, hnone, hclient, hparent, hdirs, hfs2']
    · have := writeFile_lookup_self _ _ _ _ hfs2
      rw [← hsplit] at this
      exact this

theorem download_gem_cache_aside_witness :
    url_for_spec "https://r.example/" ⟨⟨"a", "1"⟩, none⟩ =
        .ok "https://r.example/gems/a-1.gem" ∧
      (FsNode.dir [("gem-v0", .dir [("gems", .dir
          [(cache_digest "https://r.example/gems/a-1.gem" ++ ".gem",
            .file (.bytes "G"))])])]).lookup
        (gemCachePath ⟨⟨true, []⟩, false⟩ "https://r.example/gems/a-1.gem") =
        some (.file (.bytes "G")) ∧
      download_gem "https://r.example/" ⟨⟨"a", "1"⟩, none⟩
          (fun _ => .error .reqwest) ⟨⟨true, []⟩, false⟩
          (.dir [("gem-v0", .dir [("gems", .dir
            [(cache_digest "https://r.example/gems/a-1.gem" ++ ".gem",
              .file (.bytes "G"))])])]) =
        .ok ⟨.bytes "G",
          .dir [("gem-v0", .dir [("gems", .dir
            [(cache_digest "https://r.example/gems/a-1.gem" ++ ".gem",
              .file (.bytes "G"))])])], []⟩ := by
  refine ⟨rfl, rfl, ?_⟩
  exact (download_gem_cache_aside "https://r.example/" ⟨⟨"a", "1"⟩, none⟩
    (fun _ => .error .reqwest) ⟨⟨true, []⟩, false⟩
    (.dir [("gem-v0", .dir [("gems", .dir
      [(cache_digest "https://r.example/gems/a-1.gem" ++ ".gem",
        .file (.bytes "G"))])])])
    "https://r.example/gems/a-1.gem" rfl).2.2.1 (.bytes "G") rfl

theorem unpackEntries_append (step : FsNode → α → Option FsNode)
    (l₁ l₂ : List α) : ∀ fs : FsNode,
    unpackEntries step (l₁ ++ l₂) fs =
      (unpackEntries step l₁ fs).bind (unpackEntries step l₂) := by
  induction l₁ with
  | nil => intro fs; rfl
  | cons e rest ih =>
    intro fs
    simp only [List.cons_append, unpackEntries]
    rcases h : step fs e with _ | fs'
    · rfl
    · exact ih fs'

theorem unpackEntries_preserves_file (data_dir : List String)
    (rest : List (String × Blob)) : ∀ (fs fs' : FsNode) (q : List String) (bl : Blob),
    unpackEntries (unpackDataEntry data_dir) rest fs = some fs' →
    fs.lookup q = some (.file bl) →
    (∀ e ∈ rest, ¬ q <+: pathJoin data_dir e.1) →
    fs'.lookup q = some (.file bl) := by
  induction rest with
  | nil =>
    intro fs fs' q bl h hq _
    simp only [unpackEntries, Option.some.injEq] at h
    rw [← h]
    exact hq
  | cons e rest ih =>
    intro fs fs' q bl h hq hpre
    simp only [unpackEntries] at h
    rcases hstep : unpackDataEntry data_dir fs e with _ | fs1
    · rw [hstep] at h; exact Option.noConfusion h
    · rw [hstep] at h
      simp only [unpackDataEntry] at hstep
      rcases hdirs : fs.createDirAll (pathJoin data_dir e.1).dropLast with _ | fsa
      · rw [hdirs] at hstep; exact Option.noConfusion hstep
      · rw [hdirs] at hstep
        have hq1 : fsa.lookup q = some (.file bl) :=
          createDirAll_preserves_file _ _ _ _ _ hdirs hq
        have hq2 : fs1.lookup q = some (.file bl) :=
          writeFile_preserves_file _ _ _ _ _ _ hstep hq1
            (hpre e (List.mem_cons_self e rest))
        exact ih fs1 fs' q bl h hq2 fun x hx => hpre x (List.mem_cons_of_mem e hx)

theorem unpackEntries_data_lookup (data_dir : List String)
    (inner : List (String × Blob)) : ∀ (fs fs' : FsNode),
    unpackEntries (unpackDataEntry data_dir) inner fs = some fs' →
    inner.Pairwise (fun a b => ¬ pathJoin data_dir a.1 <+: pathJoin data_dir b.1) →
    ∀ e ∈ inner, fs'.lookup (pathJoin data_dir e.1) = some (.file e.2) := by
  induction inner with
  | nil =>
    intro fs fs' _ _ e he
    exact absurd he (List.not_mem_nil e)
  | cons x rest ih =>
    intro fs fs' h hpair e he
    simp only [unpackEntries] at h
    rcases hstep : unpackDataEntry data_dir fs x with _ | fs1
    · rw [hstep] at h; exact Option.noConfusion h
    · rw [hstep] at h
      rcases List.pairwise_cons.mp hpair with ⟨hhead, htail⟩
      rcases List.mem_cons.mp he with he | he
      · subst he
        simp only [unpackDataEntry] at hstep
        rcases hdirs : fs.createDirAll (pathJoin data_dir e.1).dropLast with _ | fsa
        · rw [hdirs] at hstep; exact Option.noConfusion hstep
        · rw [hdirs] at hstep
          have hself := writeFile_lookup_self _ _ _ _ hstep
          exact unpackEntries_preserves_file data_dir rest fs1 fs' _ _ h hself hhead
      · exact ih fs1 fs' h htail e he

theorem processEntry_metadata_eq (nv : String) (bundle : List String) (fs : FsNode)
    (m : Blob) :
    processEntry nv bundle fs ("metadata.gz", .gzip m) =
      match fs.createDirAll (bundle ++ ["specifications"]) with
      | none => none
      | some fs1 =>
        fs1.writeFile ((bundle ++ ["specifications"]) ++ [nv ++ ".gemspec"]) m := by
  rcases h : fs.createDirAll (bundle ++ ["specifications"]) with _ | fs1 <;>
    simp only [processEntry, gunzip, h] <;> rfl

theorem processEntry_data_eq (nv : String) (bundle : List String) (fs : FsNode)
    (inner : List (String × Blob)) :
    processEntry nv bundle fs ("data.tar.gz", .gzip (.tar inner)) =
      match fs.createDirAll (bundle ++ ["gems", nv]) with
      | none => none
      | some fs1 => unpackEntries (unpackDataEntry (bundle ++ ["gems", nv])) inner fs1 := by
  rcases h : fs.createDirAll (bundle ++ ["gems", nv]) with _ | fs1 <;>
    simp only [processEntry, gunzip, tarEntries, h] <;> rfl

theorem processEntry_skip (nv : String) (bundle : List String) (fs : FsNode)
    (x : String) (b : Blob) (h1 : x ≠ "metadata.gz") (h2 : x ≠ "data.tar.gz") :
    processEntry nv bundle fs (x, b) = some fs := by
  simp only [processEntry, if_neg h1, if_neg h2]
  by_cases h3 : x = "checksums.yaml.gz"
  · simp [h3]
  · simp only [if_neg h3]
    by_cases h4 : x = "data.tar.gz.sig"
    · simp [h4]
    · simp only [if_neg h4]
      by_cases h5 : x = "metadata.gz.sig"
      · simp [h5]
      · simp only [if_neg h5]
        by_cases h6 : x = "checksums.yaml.gz.sig"
        · simp [h6]
        · simp only [if_neg h6]

/-- C3: unpack_tarball matches outer entries by exact name: processing a list
of entries is the sequential composition of processing each; metadata.gz is
decompressed and written to specifications/name-version.gemspec, creating the
specifications directory first; data.tar.gz is decompressed, read as an inner
archive, and every inner entry lands at gems/name-version/entry-path; an
entry with any other name is skipped without error. -/
theorem unpack_tarball_by_name (spec : GemSpec) (bundle : List String) (fs : FsNode) :
    (∀ es₁ es₂ : List (String × Blob),
      Downloaded.unpack_tarball ⟨.tar (es₁ ++ es₂), spec⟩ bundle fs =
        (Downloaded.unpack_tarball ⟨.tar es₁, spec⟩ bundle fs).bind
          (Downloaded.unpack_tarball ⟨.tar es₂, spec⟩ bundle)) ∧
      (∀ (s : String) (b : Blob), s ≠ "metadata.gz" → s ≠ "data.tar.gz" →
        Downloaded.unpack_tarball ⟨.tar [(s, b)], spec⟩ bundle fs = some fs) ∧
      (∀ (m : Blob) (fs1 : FsNode),
        fs.createDirAll (bundle ++ ["specifications"]) = some fs1 →
        Downloaded.unpack_tarball ⟨.tar [("metadata.gz", .gzip m)], spec⟩ bundle fs =
          fs1.writeFile ((bundle ++ ["specifications"]) ++
            [spec.gem_version.name ++ "-" ++ spec.gem_version.version ++ ".gemspec"]) m) ∧
      (∀ (m : Blob) (fs' : FsNode),
        Downloaded.unpack_tarball ⟨.tar [("metadata.gz", .gzip m)], spec⟩ bundle fs =
          some fs' →
        fs'.lookup ((bundle ++ ["specifications"]) ++
          [spec.gem_version.name ++ "-" ++ spec.gem_version.version ++ ".gemspec"]) =
          some (.file m)) ∧
      (∀ (inner : List (String × Blob)) (fs' : FsNode),
        Downloaded.unpack_tarball ⟨.tar [("data.tar.gz", .gzip (.tar inner))], spec⟩
          bundle fs = some fs' →
        inner.Pairwise (fun a b =>
          ¬ pathJoin (bundle ++ ["gems",
              spec.gem_version.name ++ "-" ++ spec.gem_version.version]) a.1 <+:
            pathJoin (bundle ++ ["gems",
              spec.gem_version.name ++ "-" ++ spec.gem_version.version]) b.1) →
        ∀ e ∈ inner,
          fs'.lookup (pathJoin (bundle ++ ["gems",
            spec.gem_version.name ++ "-" ++ spec.gem_version.version]) e.1) =
            some (.file e.2)) := by
  refine ⟨?_, ?_, ?_, ?_, ?_⟩
  · intro es₁ es₂
    simp only [Downloaded.unpack_tarball, tarEntries]
    exact unpackEntries_append _ es₁ es₂ fs
  · intro x b hs1 hs2
    simp only [Downloaded.unpack_tarball, tarEntries, unpackEntries,
      processEntry_skip _ bundle fs x b hs1 hs2]
  · intro m fs1 hdirs
    simp only [Downloaded.unpack_tarball, tarEntries, unpackEntries,
      processEntry_metadata_eq, hdirs]
    rcases hw : fs1.writeFile ((bundle ++ ["specifications"]) ++
        [spec.gem_version.name ++ "-" ++ spec.gem_version.version ++ ".gemspec"]) m
      with _ | fs2 <;> simp [hw]
  · intro m fs' h
    simp only [Downloaded.unpack_tarball, tarEntries, unpackEntries,
      processEntry_metadata_eq] at h
    rcases hdirs : fs.createDirAll (bundle ++ ["specifications"]) with _ | fs1
    · rw [hdirs] at h; exact Option.noConfusion h
    · simp only [hdirs] at h
      rcases hw : fs1.writeFile ((bundle ++ ["specifications"]) ++
          [spec.gem_version.name ++ "-" ++ spec.gem_version.version ++ ".gemspec"]) m
        with _ | fs2
      · rw [hw] at h; exact Option.noConfusion h
      · rw [hw] at h
        simp only [Option.some.injEq] at h
        subst h
        exact writeFile_lookup_self _ _ _ _ hw
  · intro inner fs' h hpair e he
    simp only [Downloaded.unpack_tarball, tarEntries, unpackEntries,
      processEntry_data_eq] at h
    rcases hdirs : fs.createDirAll (bundle ++ ["gems",
        spec.gem_version.name ++ "-" ++ spec.gem_version.version]) with _ | fs1
    · rw [hdirs] at h; exact Option.noConfusion h
    · simp only [hdirs] at h
      rcases hu : unpackEntries (unpackDataEntry (bundle ++ ["gems",
          spec.gem_version.name ++ "-" ++ spec.gem_version.version])) inner fs1
        with _ | fsu
      · rw [hu] at h; exact Option.noConfusion h
      · rw [hu] at h
        simp only [Option.some.injEq] at h
        subst h
        exact unpackEntries_data_lookup _ inner fs1 fsu hu hpair e he

theorem unpack_tarball_by_name_witness :
    (Downloaded.unpack_tarball ⟨.tar [("weird.bin", .bytes "Z")], ⟨⟨"demo", "1.0"⟩, none⟩⟩
        ["br"] (.dir []) = some (.dir [])) ∧
      (FsNode.dir [("br", .dir [("specifications",
          .dir [("demo-1.0.gemspec", .file (.bytes "M"))])])]).lookup
        ["br", "specifications", "demo-1.0.gemspec"] = some (.file (.bytes "M")) ∧
      (FsNode.dir [("br", .dir [("gems", .dir [("demo-1.0", .dir [("lib",
          .dir [("foo.rb", .file (.bytes "F"))])])])])]).lookup
        (pathJoin ["br", "gems", "demo-1.0"] "lib/foo.rb") = some (.file (.bytes "F")) := by
  refine ⟨?_, ?_, ?_⟩
  · exact (unpack_tarball_by_name ⟨⟨"demo", "1.0"⟩, none⟩ ["br"] (.dir [])).2.1
      "weird.bin" (.bytes "Z") (by decide) (by decide)
  · exact (unpack_tarball_by_name ⟨⟨"demo", "1.0"⟩, none⟩ ["br"] (.dir [])).2.2.2.1
      (.bytes "M")
      (.dir [("br", .dir [("specifications",
        .dir [("demo-1.0.gemspec", .file (.bytes "M"))])])]) rfl
  · exact (unpack_tarball_by_name ⟨⟨"demo", "1.0"⟩, none⟩ ["br"] (.dir [])).2.2.2.2
      [("lib/foo.rb", .bytes "F")]
      (.dir [("br", .dir [("gems", .dir [("demo-1.0", .dir [("lib",
        .dir [("foo.rb", .file (.bytes "F"))])])])])]) rfl (by simp)
      ("lib/foo.rb", .bytes "F") (by simp)

theorem assocFind_append (l₁ l₂ : List (Nat × β)) (k : Nat) :
    assocFind (l₁ ++ l₂) k =
      match assocFind l₁ k with
      | some b => some b
      | none => assocFind l₂ k := by
  induction l₁ with
  | nil => rfl
  | cons hd tl ih =>
    obtain ⟨j, b⟩ := hd
    by_cases hj : j = k
    · simp [assocFind, hj]
    · simp [assocFind, hj, ih]

theorem drainEmit_spec (target : List β) :
    ∀ (fuel : Nat) (results : List (Nat × β)) (emitted : Nat) (out : List β),
      emitted ≤ target.length →
      target.length ≤ fuel + emitted →
      out = target.take emitted →
      (∀ i b, assocFind results i = some b → target[i]? = some b) →
      (drainEmit fuel results emitted out).2 =
          target.take (drainEmit fuel results emitted out).1 ∧
        (drainEmit fuel results emitted out).1 ≤ target.length ∧
        assocFind results (drainEmit fuel results emitted out).1 = none := by
  intro fuel
  induction fuel with
  | zero =>
    intro results emitted out hle hfuel hout hval
    refine ⟨hout, hle, ?_⟩
    rcases hfind : assocFind results emitted with _ | b
    · exact hfind
    · have hsome := hval emitted b hfind
      have hlen : emitted = target.length := le_antisymm hle (by omega)
      rw [hlen] at hsome
      rw [List.getElem?_eq_none_iff.mpr (le_refl target.length)] at hsome
      exact Option.noConfusion hsome
  | succ fuel ih =>
    intro results emitted out hle hfuel hout hval
    rcases hfind : assocFind results emitted with _ | b
    · simp only [drainEmit, hfind]
      exact ⟨hout, hle, trivial⟩
    · have hget := hval emitted b hfind
      have hlt : emitted < target.length := (List.getElem?_eq_some.mp hget).1
      have hout' : out ++ [b] = target.take (emitted + 1) := by
        rw [List.take_succ, hget, hout]
        rfl
      simp only [drainEmit, hfind]
      exact ih results (emitted + 1) (out ++ [b]) hlt (by omega) hout' hval

theorem runLoop_inv (limit : Nat) (inputs : List α) (f : α → β) :
    ∀ (sched : List Nat) (s s' : PureRunState β),
      runLoop limit inputs f sched s = some s' →
      RunInv limit inputs f s → RunInv limit inputs f s' := by
  intro sched
  induction sched with
  | nil =>
    intro s s' h hinv
    simp only [runLoop, Option.some.injEq] at h
    rw [← h]
    exact hinv
  | cons i rest ih =>
    intro s s' h hinv
    simp only [runLoop] at h
    by_cases hvalid : i < s.started ∧ (assocFind s.results i).isNone
    · rw [if_pos hvalid] at h
      rcases hget : inputs[i]? with _ | a
      · rw [hget] at h; exact Option.noConfusion h
      · rw [hget] at h
        obtain ⟨hstart, hemit, hout, hdrain, hval, hmax⟩ := hinv
        have hval' : ∀ j b, assocFind (s.results ++ [(i, f a)]) j = some b →
            (inputs.map f)[j]? = some b := by
          intro j b hj
          rw [assocFind_append] at hj
          rcases hfind : assocFind s.results j with _ | b0
          · rw [hfind] at hj
            simp only [assocFind] at hj
            by_cases hij : i = j
            · rw [if_pos hij] at hj
              simp only [Option.some.injEq] at hj
              subst hij
              rw [List.getElem?_map, hget, ← hj]
              rfl
            · rw [if_neg hij] at hj
              exact Option.noConfusion hj
          · rw [hfind] at hj
            simp only [Option.some.injEq] at hj
            subst hj
            exact hval j b0 hfind
        have hlenmap : (inputs.map f).length = inputs.length := by
          rw [List.length_map]
        have hdrain' := drainEmit_spec (inputs.map f) inputs.length
          (s.results ++ [(i, f a)]) s.emitted s.out (by omega)
          (by omega) hout hval'
        refine ih _ s' h ⟨rfl, ?_, ?_, ?_, hval', ?_⟩
        · exact le_trans hdrain'.2.1 (le_of_eq hlenmap)
        · exact hdrain'.1
        · exact hdrain'.2.2
        · have hsub : min inputs.length (limit + (s.results ++ [(i, f a)]).length) -
              (s.results ++ [(i, f a)]).length ≤ limit := by omega
          exact max_le hmax hsub
    · rw [if_neg hvalid] at h
      exact Option.noConfusion h

/-- C4: a bounded-concurrency batch collects its results in input submission
order regardless of the completion order the schedule dictates: the outer
source fan-out of download_gems returns the per-source lists in manifest
order (then flattens them), and the per-package fan-out of
download_gem_source returns one result per package record, in lockfile
order. -/
theorem download_results_in_input_order (β γ : Type) :
    (∀ (lockfile : GemfileDotLock) (srcResult : GemSection → List γ)
        (mcr : Nat) (schedule : List Nat) (out : List γ) (m : Nat),
      download_gems_model lockfile srcResult mcr schedule = some (out, m) →
      out = (lockfile.gem.map srcResult).flatten) ∧
      (∀ (sec : GemSection) (gemResult : GemSpec → β)
          (mcr : Nat) (schedule : List Nat) (out : List β) (m : Nat),
        download_gem_source_model sec gemResult mcr schedule = some (out, m) →
        out = sec.specs.map gemResult) := by
  have key : ∀ (α' β' : Type) (limit : Nat) (inputs : List α') (f : α' → β')
      (schedule : List Nat) (out : List β') (m : Nat),
      runBuffered limit inputs f schedule = some (out, m) → out = inputs.map f := by
    intro α' β' limit inputs f schedule out m h
    simp only [runBuffered] at h
    rcases hrun : runLoop limit inputs f schedule (initState inputs.length limit)
      with _ | s
    · rw [hrun] at h; exact Option.noConfusion h
    · simp only [hrun] at h
      have hinit : RunInv limit inputs f (initState inputs.length limit) := by
        refine ⟨by simp [initState], by simp [initState], by simp [initState],
          by simp [initState, assocFind], ?_, by simp [initState]⟩
        intro i b hb
        simp [initState, assocFind] at hb
      have hinv := runLoop_inv limit inputs f schedule _ s hrun hinit
      by_cases hdone : s.emitted = inputs.length
      · rw [if_pos hdone] at h
        simp only [Option.some.injEq, Prod.mk.injEq] at h
        obtain ⟨hout, _⟩ := h
        rw [← hout, hinv.2.2.1, hdone]
        have : (inputs.map f).length = inputs.length := by rw [List.length_map]
        rw [← this, List.take_length]
      · rw [if_neg hdone] at h
        exact Option.noConfusion h
  constructor
  · intro lockfile srcResult mcr schedule out m h
    simp only [download_gems_model] at h
    rcases hrb : runBuffered 10 lockfile.gem srcResult schedule with _ | ⟨out0, m0⟩
    · rw [hrb] at h; exact Option.noConfusion h
    · simp only [hrb, Option.some.injEq, Prod.mk.injEq] at h
      obtain ⟨hout, _⟩ := h
      rw [← hout, key _ _ 10 lockfile.gem srcResult schedule out0 m0 hrb]
  · intro sec gemResult mcr schedule out m h
    exact key _ _ mcr sec.specs gemResult schedule out m h

theorem download_results_in_input_order_witness :
    download_gem_source_model
        ⟨"r", [⟨⟨"a", "1"⟩, none⟩, ⟨⟨"b", "1"⟩, none⟩, ⟨⟨"c", "1"⟩, none⟩]⟩
        (fun sp => sp.gem_version.name) 2 [1, 0, 2] = some (["a", "b", "c"], 2) ∧
      (["a", "b", "c"] : List String) =
        [⟨⟨"a", "1"⟩, none⟩, ⟨⟨"b", "1"⟩, none⟩, (⟨⟨"c", "1"⟩, none⟩ : GemSpec)].map
          (fun sp => sp.gem_version.name) :=
  ⟨rfl, (download_results_in_input_order String String).2
    ⟨"r", [⟨⟨"a", "1"⟩, none⟩, ⟨⟨"b", "1"⟩, none⟩, ⟨⟨"c", "1"⟩, none⟩]⟩
    (fun sp => sp.gem_version.name) 2 [1, 0, 2] ["a", "b", "c"] 2 rfl⟩

/-- C7: the outer source fan-out admits at most 10 tasks in flight whatever
the configured limit is (the configuration does not even reach it), the inner
per-package fan-out admits at most the configured limit, and admission is a
sliding window: after every completion the number of started tasks is again
min(inputs, limit + completed), so a queued task starts as soon as a slot
frees, never in fixed batches. -/
theorem download_concurrency_bounds (β γ : Type) :
    (∀ (sec : GemSection) (gemResult : GemSpec → β) (limit : Nat)
        (schedule : List Nat) (out : List β) (m : Nat),
      download_gem_source_model sec gemResult limit schedule = some (out, m) →
      m ≤ limit) ∧
      (∀ (lockfile : GemfileDotLock) (srcResult : GemSection → List γ)
          (mcr : Nat) (schedule : List Nat) (out : List γ) (m : Nat),
        download_gems_model lockfile srcResult mcr schedule = some (out, m) → m ≤ 10) ∧
      (∀ (lockfile : GemfileDotLock) (srcResult : GemSection → List γ)
          (m₁ m₂ : Nat) (schedule : List Nat),
        download_gems_model lockfile srcResult m₁ schedule =
          download_gems_model lockfile srcResult m₂ schedule) ∧
      (∀ (inputs : List GemSpec) (gemResult : GemSpec → β) (limit : Nat)
          (schedule : List Nat) (s' : PureRunState β),
        runLoop limit inputs gemResult schedule (initState inputs.length limit) =
          some s' →
        s'.started = min inputs.length (limit + s'.results.length)) := by
  have keyInit : ∀ (α' β' : Type) (limit : Nat) (inputs : List α') (f : α' → β'),
      RunInv limit inputs f (initState inputs.length limit) := by
    intro α' β' limit inputs f
    refine ⟨by simp [initState], by simp [initState], by simp [initState],
      by simp [initState, assocFind], ?_, by simp [initState]⟩
    intro i b hb
    simp [initState, assocFind] at hb
  have key : ∀ (α' β' : Type) (limit : Nat) (inputs : List α') (f : α' → β')
      (schedule : List Nat) (out : List β') (m : Nat),
      runBuffered limit inputs f schedule = some (out, m) → m ≤ limit := by
    intro α' β' limit inputs f schedule out m h
    simp only [runBuffered] at h
    rcases hrun : runLoop limit inputs f schedule (initState inputs.length limit)
      with _ | s
    · rw [hrun] at h; exact Option.noConfusion h
    · simp only [hrun] at h
      have hinv := runLoop_inv limit inputs f schedule _ s hrun
        (keyInit α' β' limit inputs f)
      by_cases hdone : s.emitted = inputs.length
      · rw [if_pos hdone] at h
        simp only [Option.some.injEq, Prod.mk.injEq] at h
        obtain ⟨_, hm⟩ := h
        rw [← hm]
        exact hinv.2.2.2.2.2
      · rw [if_neg hdone] at h
        exact Option.noConfusion h
  refine ⟨?_, ?_, ?_, ?_⟩
  · intro sec gemResult limit schedule out m h
    exact key _ _ limit sec.specs gemResult schedule out m h
  · intro lockfile srcResult mcr schedule out m h
    simp only [download_gems_model] at h
    rcases hrb : runBuffered 10 lockfile.gem srcResult schedule with _ | ⟨out0, m0⟩
    · rw [hrb] at h; exact Option.noConfusion h
    · simp only [hrb, Option.some.injEq, Prod.mk.injEq] at h
      obtain ⟨_, hm⟩ := h
      rw [← hm]
      exact key _ _ 10 lockfile.gem srcResult schedule out0 m0 hrb
  · intro lockfile srcResult m₁ m₂ schedule
    rfl
  · intro inputs gemResult limit schedule s' h
    exact (runLoop_inv limit inputs gemResult schedule _ s' h
      (keyInit GemSpec β limit inputs gemResult)).1

theorem download_concurrency_bounds_witness :
    download_gem_source_model
        ⟨"r", [⟨⟨"a", "1"⟩, none⟩, ⟨⟨"b", "1"⟩, none⟩, ⟨⟨"c", "1"⟩, none⟩]⟩
        (fun sp => sp.gem_version.name) 2 [1, 0, 2] = some (["a", "b", "c"], 2) ∧
      2 ≤ 2 :=
  ⟨rfl, (download_concurrency_bounds String String).1
    ⟨"r", [⟨⟨"a", "1"⟩, none⟩, ⟨⟨"b", "1"⟩, none⟩, ⟨⟨"c", "1"⟩, none⟩]⟩
    (fun sp => sp.gem_version.name) 2 [1, 0, 2] ["a", "b", "c"] 2 rfl⟩

theorem tryRunLoop_append (limit : Nat) (inputs : List α)
    (f : α → σ → Except ε (β × σ)) (l₁ : List Nat) :
    ∀ (l₂ : List Nat) (s s₁ : TryRunState β σ),
      tryRunLoop limit inputs f l₁ s = some (s₁, none) →
      tryRunLoop limit inputs f (l₁ ++ l₂) s = tryRunLoop limit inputs f l₂ s₁ := by
  induction l₁ with
  | nil =>
    intro l₂ s s₁ h
    simp only [tryRunLoop, Option.some.injEq, Prod.mk.injEq] at h
    rw [List.nil_append, h.1]
  | cons i rest ih =>
    intro l₂ s s₁ h
    simp only [tryRunLoop] at h
    rw [List.cons_append]
    by_cases hvalid : i < s.started ∧ (assocFind s.results i).isNone
    · rw [if_pos hvalid] at h
      simp only [tryRunLoop, if_pos hvalid]
      rcases hget : inputs[i]? with _ | a
      · rw [hget] at h; exact Option.noConfusion h
      · simp only [hget] at h
        rcases hf : f a s.st with e | ⟨b, st'⟩
        · simp only [hf, Option.some.injEq, Prod.mk.injEq] at h
          exact absurd h.2 (by simp)
        · simp only [hf] at h
          simp only [hget, hf]
          exact ih l₂ _ s₁ h
    · rw [if_neg hvalid] at h
      exact Option.noConfusion h

/-- C5: the first failing download aborts the batch — the outcome is that
error, whatever tasks were still queued or in flight — the error propagates
through the install composition to the caller, and the shared filesystem
keeps exactly the cache files the tasks that succeeded before the failure
had written (no rollback). -/
theorem download_fail_fast (α β σ ε : Type) :
    (∀ (limit : Nat) (inputs : List α) (f : α → σ → Except ε (β × σ))
        (pre : List Nat) (i : Nat) (s : TryRunState β σ) (a : α) (e : ε) (st₀ : σ),
      tryRunLoop limit inputs f pre ⟨min inputs.length limit, [], st₀⟩ =
        some (s, none) →
      i < s.started → (assocFind s.results i).isNone →
      inputs[i]? = some a → f a s.st = .error e →
      ∀ rest : List Nat,
        tryRunLoop limit inputs f (pre ++ i :: rest)
            ⟨min inputs.length limit, [], st₀⟩ = some (s, some e) ∧
          runBufferedTry limit inputs f (pre ++ i :: rest) st₀ =
            some (.error e, s.st)) ∧
      (∀ (sec : GemSection) (client : String → Except CiError Blob) (cache : Cache)
          (limit : Nat) (schedule : List Nat) (fs : FsNode),
        download_gem_source_run sec client cache limit schedule fs =
          runBufferedTry limit sec.specs
            (fun sp fs1 =>
              match download_gem sec.remote sp client cache fs1 with
              | .error e => .error e
              | .ok o => .ok (o.contents, o.fs))
            schedule fs) ∧
      (∀ (e : CiError) (st : FsNode)
          (inst : List Blob → FsNode → Except CiError FsNode),
        ci_inner_model (.error e, st) inst = .error e) := by
  refine ⟨?_, ?_, ?_⟩
  · intro limit inputs f pre i s a e st₀ hpre hlt hnotdone hget hf rest
    have hstep : tryRunLoop limit inputs f (i :: rest) s = some (s, some e) := by
      simp only [tryRunLoop, if_pos (And.intro hlt hnotdone), hget, hf]
    have hall := tryRunLoop_append limit inputs f pre (i :: rest) _ s hpre
    rw [hstep] at hall
    refine ⟨hall, ?_⟩
    simp only [runBufferedTry, hall]
  · intro sec client cache limit schedule fs
    rfl
  · intro e st inst
    rfl

theorem download_fail_fast_witness :
    tryRunLoop 10 [⟨⟨"a", "1"⟩, none⟩, (⟨⟨"b", "1"⟩, none⟩ : GemSpec)]
        (fun sp fs1 =>
          match download_gem "https://r.example/" sp
              (fun url =>
                if url = "https://r.example/gems/a-1.gem" then Except.ok (Blob.bytes "A")
                else Except.error CiError.reqwest)
              ⟨⟨true, []⟩, false⟩ fs1 with
          | .error e => .error e
          | .ok o => .ok (o.contents, o.fs))
        [0] ⟨min 2 10, [], .dir []⟩ =
      some (⟨2, [(0, Blob.bytes "A")],
        .dir [("gem-v0", .dir [("gems", .dir
          [(cache_digest "https://r.example/gems/a-1.gem" ++ ".gem",
            .file (.bytes "A"))])])]⟩, none) ∧
      runBufferedTry 10 [⟨⟨"a", "1"⟩, none⟩, (⟨⟨"b", "1"⟩, none⟩ : GemSpec)]
        (fun sp fs1 =>
          match download_gem "https://r.example/" sp
              (fun url =>
                if url = "https://r.example/gems/a-1.gem" then Except.ok (Blob.bytes "A")
                else Except.error CiError.reqwest)
              ⟨⟨true, []⟩, false⟩ fs1 with
          | .error e => .error e
          | .ok o => .ok (o.contents, o.fs))
        [0, 1] (.dir []) =
      some (.error .reqwest,
        .dir [("gem-v0", .dir [("gems", .dir
          [(cache_digest "https://r.example/gems/a-1.gem" ++ ".gem",
            .file (.bytes "A"))])])]) := by
  refine ⟨rfl, ?_⟩
  exact ((download_fail_fast GemSpec Blob FsNode CiError).1 10
    [⟨⟨"a", "1"⟩, none⟩, (⟨⟨"b", "1"⟩, none⟩ : GemSpec)]
    (fun sp fs1 =>
      match download_gem "https://r.example/" sp
          (fun url =>
            if url = "https://r.example/gems/a-1.gem" then Except.ok (Blob.bytes "A")
            else Except.error CiError.reqwest)
          ⟨⟨true, []⟩, false⟩ fs1 with
      | .error e => .error e
      | .ok o => .ok (o.contents, o.fs))
    [0] 1
    ⟨2, [(0, Blob.bytes "A")],
      .dir [("gem-v0", .dir [("gems", .dir
        [(cache_digest "https://r.example/gems/a-1.gem" ++ ".gem",
          .file (.bytes "A"))])])]⟩
    ⟨⟨"b", "1"⟩, none⟩ .reqwest (.dir []) rfl (by decide) rfl rfl rfl []).2

/-- C9: when the resolver's output cannot be read as a directory string the
install stage fails with the dedicated BadBundlePath error — an error
distinct from the generic Io error — before any archive is unpacked:
whatever was downloaded, install_gems returns that error without touching
the filesystem. -/
theorem install_gems_bad_bundle_path (downloaded : List Downloaded) (fs : FsNode) :
    find_bundle_path (.stdout none) = .error .badBundlePath ∧
      install_gems downloaded (.stdout none) fs = .error .badBundlePath ∧
      find_bundle_path .ioFailure = .error .io ∧
      CiError.badBundlePath ≠ CiError.io := by
  refine ⟨rfl, rfl, rfl, ?_⟩
  intro h
  exact CiError.noConfusion h

theorem install_gems_bad_bundle_path_witness :
    install_gems [] (.stdout none) (.dir []) = .error .badBundlePath :=
  (install_gems_bad_bundle_path [] (.dir [])).2.1

end RvDev
